import Mathlib

/-!
Shallow embedding of `request.go` from the `minio-go-legacy` repository
(legacy Amazon S3 "Signature Version 2" request preparation and signing),
together with theorems settling the specification claims about it.

Modelling conventions:
* Go strings are modelled as Lean `String`s (lists of Unicode scalar
  values) where the code manipulates runes, and as `List Nat` of byte
  values (each `< 256`) where the code manipulates raw bytes (query
  parsing, percent escaping, HMAC input and the canonical buffers).
* Go `map` values are modelled as association lists; where the source
  iterates over a map (whose order Go leaves unspecified) the model fixes
  the association-list order and the relevant theorems quantify over
  permutations where order-independence is at stake.
* The cryptographic primitive `HMAC-SHA1` from Go's standard library is
  treated as an opaque parameter `hmacSha1 : List Nat → List Nat → List Nat`
  (key, then message); all claims treat the digest as a black box, so the
  theorems quantify over this function.
-/

namespace MinioV2

/-- Uppercase hexadecimal digit character for a nibble value, as produced by
Go's `hex.EncodeToString` followed by `strings.ToUpper` in `getURLEncodedPath`. -/
def hexUpperDigitChar (n : Nat) : Char :=
  if n < 10 then Char.ofNat (48 + n) else Char.ofNat (55 + n)

/-- Uppercase hexadecimal digit as a byte value, as produced by Go's
`"0123456789ABCDEF"` table in `url.QueryEscape`. -/
def hexUpperDigitByte (n : Nat) : Nat :=
  if n < 10 then 48 + n else 55 + n

/-- Value of a hexadecimal digit character, accepting both cases
(the decoder side of percent-escaping; mirrors Go's `ishex`/`unhex`). -/
def hexValChar (c : Char) : Option Nat :=
  if 48 ≤ c.toNat ∧ c.toNat ≤ 57 then some (c.toNat - 48)
  else if 97 ≤ c.toNat ∧ c.toNat ≤ 102 then some (c.toNat - 87)
  else if 65 ≤ c.toNat ∧ c.toNat ≤ 70 then some (c.toNat - 55)
  else none

/-- Value of a hexadecimal digit byte, accepting both cases
(mirrors Go's `ishex`/`unhex` in `net/url`). -/
def hexValByte (b : Nat) : Option Nat :=
  if 48 ≤ b ∧ b ≤ 57 then some (b - 48)
  else if 97 ≤ b ∧ b ≤ 102 then some (b - 87)
  else if 65 ≤ b ∧ b ≤ 70 then some (b - 55)
  else none

/-- UTF-8 byte sequence of one Unicode scalar value, the effect of Go's
`utf8.EncodeRune` (written with division and remainder; `v / 64` is the
right shift by 6 and `v % 64` masks the low six bits). -/
def utf8EncodeChar (c : Char) : List Nat :=
  if c.toNat < 128 then [c.toNat]
  else if c.toNat < 2048 then [192 + c.toNat / 64, 128 + c.toNat % 64]
  else if c.toNat < 65536 then
    [224 + c.toNat / 4096, 128 + c.toNat / 64 % 64, 128 + c.toNat % 64]
  else
    [240 + c.toNat / 262144, 128 + c.toNat / 4096 % 64, 128 + c.toNat / 64 % 64,
     128 + c.toNat % 64]

/-- UTF-8 byte sequence of a whole string (how a Go `string` is laid out
in memory). -/
def utf8Bytes (s : String) : List Nat :=
  s.toList.flatMap utf8EncodeChar

/-- Rebuild a Lean string from a list of byte values below 256, used for
the ASCII-only outputs of Base64 encoding. -/
def asciiString (bs : List Nat) : String :=
  String.mk (bs.map Char.ofNat)

/-! ### Path Codec: `getURLEncodedPath` (src/request.go lines 61-92) -/

/-- Character class of the Go regular expression `^[a-zA-Z0-9-_.~/]+$` and of
the per-rune tests in the encoding loop of `getURLEncodedPath`: ASCII
letters, digits, and the characters `- _ . ~ /` (values 45 95 46 126 47). -/
def isReservedChar (c : Char) : Bool :=
  (65 ≤ c.toNat && c.toNat ≤ 90) || (97 ≤ c.toNat && c.toNat ≤ 122) ||
    (48 ≤ c.toNat && c.toNat ≤ 57) ||
    c.toNat == 45 || c.toNat == 95 || c.toNat == 46 || c.toNat == 126 || c.toNat == 47

/-- Whole-string match of `regexp.MustCompile("^[a-zA-Z0-9-_.~/]+$")`:
nonempty, and every rune lies in the class. -/
def matchesReservedNames (p : String) : Bool :=
  !p.toList.isEmpty && p.toList.all isReservedChar

/-- Encoding of one rune in the slow path of `getURLEncodedPath`: reserved
characters are copied, every other rune is UTF-8 encoded and each byte
rendered as percent followed by two uppercase hexadecimal digits.
(Go's `utf8.RuneLen` cannot return a negative length here: ranging over a
Go string never yields an invalid rune, and a Lean `Char` is always a
valid scalar value, so the defensive early return of the source is dead.) -/
def encodePathChar (c : Char) : List Char :=
  if isReservedChar c then [c]
  else (utf8EncodeChar c).flatMap (fun b => ['%', hexUpperDigitChar (b / 16), hexUpperDigitChar (b % 16)])

/-- Embedding of `getURLEncodedPath`: fast path when the whole input matches
the reserved-character regular expression, otherwise rune-by-rune encoding. -/
def getURLEncodedPath (pathName : String) : String :=
  if matchesReservedNames pathName then pathName
  else String.mk (pathName.toList.flatMap encodePathChar)

/-- Specification-side percent decoder (for the round-trip claim): a percent
sign must be followed by two hexadecimal digits and decodes to one byte;
every other character contributes its UTF-8 bytes. -/
def percentDecode : List Char → Option (List Nat)
  | [] => some []
  | c :: rest =>
    if c = '%' then
      match rest with
      | h :: l :: rest2 =>
        match hexValChar h, hexValChar l, percentDecode rest2 with
        | some hv, some lv, some tail => some ((16 * hv + lv) :: tail)
        | _, _, _ => none
      | _ => none
    else
      match percentDecode rest with
      | some tail => some (utf8EncodeChar c ++ tail)
      | none => none

/-! ### Path Parser: `path2BucketAndObject`, `path2Query`
(src/request.go lines 94-130) -/

/-- Modelled from the spec: the path separator constant of the repository
(declared outside `src/request.go`); section 4.3 of the specification fixes
it to `"/"` (`serverAddress + "/"`). -/
def separator : String := "/"

/-- Split a list at the first occurrence of `sep` (helper for `goSplitN`);
returns the part before and the part after the separator, or `none` when
the separator does not occur. -/
def splitAtFirst (sep : Char) : List Char → Option (List Char × List Char)
  | [] => none
  | c :: rest =>
    if c = sep then some ([], rest)
    else
      match splitAtFirst sep rest with
      | none => none
      | some (pre, post) => some (c :: pre, post)

/-- Go's `strings.SplitN` for a single-character separator and `n ≥ 0`:
at most `n` substrings, the last one holding the unsplit remainder; `n = 0`
yields no substrings. Both separators used by the source (`"?"` and
`separator = "/"`) are single characters. -/
def goSplitN (sep : Char) : Nat → List Char → List (List Char)
  | 0, _ => []
  | 1, s => [s]
  | n + 2, s =>
    match splitAtFirst sep s with
    | none => [s]
    | some (pre, post) => pre :: goSplitN sep (n + 1) post

/-- Embedding of `path2BucketAndObject`: split once at the first question
mark, split the front part on the separator into at most three components,
then the `switch` on the component count (Go indexes from zero; the
`default` of the switch leaves both names empty). -/
def path2BucketAndObject (path : String) : String × String :=
  let pathSplits := goSplitN '?' 2 path.toList
  let splits := goSplitN '/' 3 (pathSplits.headD [])
  match splits with
  | [] => ("", "")
  | [_] => ("", "")
  | [_, b] => (String.mk b, "")
  | [_, b, o] => (String.mk b, String.mk o)
  | _ => ("", "")

/-- Embedding of `path2Object`. -/
def path2Object (path : String) : String :=
  (path2BucketAndObject path).2

/-- Embedding of `path2Bucket`. -/
def path2Bucket (path : String) : String :=
  (path2BucketAndObject path).1

/-- Embedding of `path2Query`: everything after the first question mark,
empty when there is none. -/
def path2Query (path : String) : String :=
  match goSplitN '?' 2 path.toList with
  | _ :: q :: _ => String.mk q
  | _ => ""

/-! ### Data model: `operation` and `Config` -/

/-- Embedding of the `operation` struct (server, method, path). -/
structure operation where
  HTTPServer : String
  HTTPMethod : String
  HTTPPath : String

/-- Embedding of the fields of `Config` that the signing core reads
(credentials, region, addressing style). -/
structure Config where
  AccessKeyID : String
  SecretAccessKey : String
  Region : String
  isVirtualStyle : Bool

/-! ### URL Builder: `getRequestURL` (src/request.go lines 132-152) -/

/-- Embedding of `(op *operation) getRequestURL`. -/
def getRequestURL (op : operation) (config : Config) : String :=
  let url0 := op.HTTPServer ++ separator
  let url1 := if !config.isVirtualStyle then url0 ++ path2Bucket op.HTTPPath else url0
  let objectName := getURLEncodedPath (path2Object op.HTTPPath)
  let queryPath := path2Query op.HTTPPath
  if objectName = "" ∧ queryPath ≠ "" then url1 ++ "?" ++ queryPath
  else if objectName ≠ "" ∧ queryPath = "" then url1 ++ separator ++ objectName
  else if objectName ≠ "" ∧ queryPath ≠ "" then url1 ++ separator ++ objectName ++ "?" ++ queryPath
  else url1

/-! ### String helpers shared by the canonicalizer -/

/-- ASCII lowercasing of one character: the effect of Go's
`strings.ToLower` on the ASCII header names this code signs (Go's function
also folds non-ASCII letters, which cannot occur in HTTP header names). -/
def charToLower (c : Char) : Char :=
  if 65 ≤ c.toNat ∧ c.toNat ≤ 90 then Char.ofNat (c.toNat + 32) else c

/-- Lowercased string, `strings.ToLower`. -/
def toLowerStr (s : String) : String :=
  String.mk (s.toList.map charToLower)

/-- Go's `strings.HasPrefix s pre`. -/
def goHasPre (s pre : String) : Bool :=
  pre.toList.isPrefixOf s.toList

/-- Lexicographic comparison of character lists by scalar value; on UTF-8
strings this coincides with Go's bytewise string order used by
`sort.Strings`. -/
def charListLE : List Char → List Char → Bool
  | [], _ => true
  | _ :: _, [] => false
  | a :: as, b :: bs =>
    if a.toNat < b.toNat then true
    else if b.toNat < a.toNat then false
    else charListLE as bs

/-- The string order of Go's `sort.Strings`, as a proposition for the
sorting machinery. -/
def strLEr (a b : String) : Prop :=
  charListLE a.toList b.toList = true

instance : DecidableRel strLEr :=
  fun a b => inferInstanceAs (Decidable (charListLE a.toList b.toList = true))

/-! ### Canonicalized metadata headers: `writeCanonicalizedAmzHeaders`
(src/request.go lines 397-429) -/

/-- Header map of an in-flight request: association list from header name
to the list of values (Go's `http.Header`); a Go map binds each key once,
and the list order stands in for Go's unspecified map iteration order. -/
abbrev Headers := List (String × List String)

/-- Name half of the collection loop of `writeCanonicalizedAmzHeaders`:
the lowercased names appended to `amzHeaders`, one per header whose
lowercased name starts with `x-amz`, in iteration order. -/
def amzNames (hs : Headers) : List String :=
  (hs.map fun kv => toLowerStr kv.1).filter fun lk => goHasPre lk "x-amz"

/-- Assignment `vals[lk] = vv` on the association-list model of the Go map
`vals`: replace the binding if the key is present, otherwise add it. -/
def valsUpdate (m : List (String × List String)) (k : String) (v : List String) :
    List (String × List String) :=
  match m with
  | [] => [(k, v)]
  | kv :: rest => if kv.1 = k then (k, v) :: rest else kv :: valsUpdate rest k v

/-- Map half of the collection loop: the final state of the Go map `vals`
after `vals[lk] = vv` ran for every matching header in iteration order. -/
def amzVals (hs : Headers) : List (String × List String) :=
  hs.foldl (fun m kv =>
    let lk := toLowerStr kv.1
    if goHasPre lk "x-amz" then valsUpdate m lk kv.2 else m) []

/-- Lookup `vals[k]`; a missing key yields Go's nil slice, here `[]`. -/
def valsGet (m : List (String × List String)) (k : String) : List String :=
  match m.find? (fun kv => kv.1 == k) with
  | some kv => kv.2
  | none => []

/-- Comma join of one header's values: the inner loop writes each value,
preceded by a comma from the second one on; values holding newlines are
written verbatim (both branches of the source write `v` unchanged). -/
def joinComma : List String → String
  | [] => ""
  | [v] => v
  | v :: vs => v ++ "," ++ joinComma vs

/-- Concatenation of the per-name lines accumulated in the buffer. -/
def strJoin : List String → String
  | [] => ""
  | s :: rest => s ++ strJoin rest

/-- Embedding of `writeCanonicalizedAmzHeaders`: collect the lowercased
`x-amz` names and the map `vals`, sort the collected names
(`sort.Strings`, bytewise order), then emit one `name:joined-values`
line per collected name. -/
def writeCanonicalizedAmzHeaders (hs : Headers) : String :=
  let sorted := List.insertionSort strLEr (amzNames hs)
  strJoin (sorted.map fun k => k ++ ":" ++ joinComma (valsGet (amzVals hs) k) ++ "\n")

/-- Specification-side description of the metadata-header section
(refinement target, written from the words of spec section 4.5a): the
`x-amz` headers as lowercased name-values pairs. -/
def amzPairs (hs : Headers) : List (String × List String) :=
  hs.filterMap fun kv =>
    if goHasPre (toLowerStr kv.1) "x-amz" then some (toLowerStr kv.1, kv.2) else none

/-- Specification-side canonicalized metadata headers: sort the collected
pairs by lowercased name and emit one line per pair. -/
def amzHeadersSpec (hs : Headers) : String :=
  let sorted := List.insertionSort (fun a b : String × List String => strLEr a.1 b.1) (amzPairs hs)
  strJoin (sorted.map fun kv => kv.1 ++ ":" ++ joinComma kv.2 ++ "\n")

/-! ### Query strings: Go's `net/url` machinery used by the source
(`url.ParseQuery`, `url.QueryEscape`, `url.Values`), at the byte level.
Byte values: 37 is percent, 38 ampersand, 43 plus, 32 space, 59 semicolon,
61 equals, 63 question mark. -/

/-- Parsed query map `url.Values`: association list from decoded key bytes
to the decoded values accumulated in query order. -/
abbrev Values := List (List Nat × List (List Nat))

/-- Cut a query into segments at every ampersand or semicolon, the
separators of `url.ParseQuery` in the Go releases contemporary with this
code (the accumulator carries the current segment reversed). -/
def splitSegsAux (acc : List Nat) : List Nat → List (List Nat)
  | [] => [acc.reverse]
  | b :: rest =>
    if b = 38 ∨ b = 59 then acc.reverse :: splitSegsAux [] rest
    else splitSegsAux (b :: acc) rest

/-- Segments of a query string; an empty query has none (Go's parse loop
body never runs), and empty segments are dropped later by the
empty-key check, matching the `continue` of the Go loop. -/
def splitSegs (bs : List Nat) : List (List Nat) :=
  if bs = [] then [] else splitSegsAux [] bs

/-- Split one segment at its first equals sign into key and value bytes;
without an equals sign the value is empty. -/
def cutEq (seg : List Nat) : List Nat × List Nat :=
  let key := seg.takeWhile (fun b => b ≠ 61)
  let rest := seg.dropWhile (fun b => b ≠ 61)
  (key, rest.tail)

/-- Go's `url.QueryUnescape`: plus becomes space, a percent must be
followed by two hexadecimal digits and decodes to one byte, any other
byte is copied; a malformed escape fails. -/
def queryUnescape : List Nat → Option (List Nat)
  | [] => some []
  | b :: rest =>
    if b = 37 then
      match rest with
      | h :: l :: rest2 =>
        match hexValByte h, hexValByte l, queryUnescape rest2 with
        | some hv, some lv, some tail => some ((16 * hv + lv) :: tail)
        | _, _, _ => none
      | _ => none
    else
      match queryUnescape rest with
      | some tail => some ((if b = 43 then 32 else b) :: tail)
      | none => none

/-- Go's `m[key] = append(m[key], value)` on the `url.Values` model. -/
def valuesAdd (m : Values) (k v : List Nat) : Values :=
  match m with
  | [] => [(k, [v])]
  | kv :: rest => if kv.1 = k then (kv.1, kv.2 ++ [v]) :: rest else kv :: valuesAdd rest k v

/-- Lookup `vals[resource]` with presence information (the comma-ok form
`vv, ok := vals[resource]` of the source). -/
def valuesGet (m : Values) (k : List Nat) : Option (List (List Nat)) :=
  match m.find? (fun kv => kv.1 == k) with
  | some kv => some kv.2
  | none => none

/-- Go's `url.Values.Set`: bind the key to exactly one value. -/
def valuesSet (m : Values) (k v : List Nat) : Values :=
  match m with
  | [] => [(k, [v])]
  | kv :: rest => if kv.1 = k then (k, [v]) :: rest else kv :: valuesSet rest k v

/-- Embedding of `url.ParseQuery` (the source discards the error value, so
only the map it returns is modelled): for every nonempty segment, cut at
the first equals sign, decode key and value, and skip the pair when either
decoding fails. -/
def goParseQuery (query : List Nat) : Values :=
  (splitSegs query).foldl (fun m seg =>
    if seg = [] then m
    else
      let kv := cutEq seg
      match queryUnescape kv.1, queryUnescape kv.2 with
      | some k, some v => valuesAdd m k v
      | _, _ => m) []

/-- Bytes that `url.QueryEscape` leaves unescaped: ASCII letters, digits,
and `- _ . ~` (values 45 95 46 126). -/
def queryUnreserved (b : Nat) : Bool :=
  (48 ≤ b && b ≤ 57) || (65 ≤ b && b ≤ 90) || (97 ≤ b && b ≤ 122) ||
    b == 45 || b == 95 || b == 46 || b == 126

/-- Go's `url.QueryEscape`: space becomes plus, unreserved bytes are
copied, every other byte becomes percent and two uppercase hexadecimal
digits. -/
def goQueryEscape (v : List Nat) : List Nat :=
  v.flatMap fun b =>
    if queryUnreserved b then [b]
    else if b = 32 then [43]
    else [37, hexUpperDigitByte (b / 16), hexUpperDigitByte (b % 16)]

/-- Lexicographic byte-list order (the order of `sort.Strings` on the
decoded keys inside `url.Values.Encode`). -/
def byteListLE : List Nat → List Nat → Bool
  | [], _ => true
  | _ :: _, [] => false
  | a :: as, b :: bs =>
    if a < b then true
    else if b < a then false
    else byteListLE as bs

/-- The byte-list order as a proposition for the sorting machinery. -/
def byteLEr (a b : List Nat) : Prop :=
  byteListLE a b = true

instance : DecidableRel byteLEr :=
  fun a b => inferInstanceAs (Decidable (byteListLE a b = true))

/-- Ampersand join of the encoded `key=value` fragments. -/
def joinAmp : List (List Nat) → List Nat
  | [] => []
  | [s] => s
  | s :: rest => s ++ 38 :: joinAmp rest

/-- Go's `url.Values.Encode`: sort the keys, then emit
`escape(key)=escape(value)` for every value of every key in order,
joined with ampersands. -/
def valuesEncode (m : Values) : List Nat :=
  let keys := List.insertionSort byteLEr (m.map fun kv => kv.1)
  joinAmp (keys.flatMap fun k =>
    (match valuesGet m k with
     | some vs => vs
     | none => []).map fun v => goQueryEscape k ++ 61 :: goQueryEscape v)

/-! ### Canonicalized resource: `resourceList` and
`writeCanonicalizedResource` (src/request.go lines 432-500) -/

/-- The sub-resource allow-list in its declared source order (the comment
of the source demands a sorted list, but `response-content-type` is
declared before `response-content-language`; the code re-sorts at run
time before use). -/
def resourceList : List String :=
  ["acl", "location", "logging", "notification", "partNumber", "policy",
   "response-content-type", "response-content-language", "response-expires",
   "response-cache-control", "response-content-disposition",
   "response-content-encoding", "requestPayment", "torrent", "uploadId",
   "uploads", "versionId", "versioning", "versions", "website"]

/-- State of the allow-list after the `sort.Strings(resourceList)` that
`writeCanonicalizedResource` performs before its emission loop. -/
def sortedResourceList : List String :=
  List.insertionSort strLEr resourceList

/-- One emitted fragment of the query part of the canonical resource: the
parameter name, then, when the first value is nonempty, an equals sign and
that first value query-escaped. -/
def resourceSegment (res : String) (vv : List (List Nat)) : List Nat :=
  utf8Bytes res ++ (if (vv.headD []).length > 0 then 61 :: goQueryEscape (vv.headD []) else [])

/-- The emission decision for one allow-list entry: present in the parsed
query with at least one value, or skipped. -/
def segOf (vals : Values) (res : String) : Option (List Nat) :=
  match valuesGet vals (utf8Bytes res) with
  | some vv => if vv.length > 0 then some (resourceSegment res vv) else none
  | none => none

/-- The emission loop of `writeCanonicalizedResource` with its match
counter `n`: the first emitted fragment is preceded by a question mark,
later ones by an ampersand. -/
def resourceLoopAux (vals : Values) : List String → Nat → List Nat → List Nat
  | [], _, buf => buf
  | res :: rest, n, buf =>
    match segOf vals res with
    | some seg => resourceLoopAux vals rest (n + 1) (buf ++ (if n + 1 = 1 then [63] else [38]) ++ seg)
    | none => resourceLoopAux vals rest n buf

/-- The query portion of the canonical resource: nothing for an empty raw
query, otherwise the emission loop over the sorted allow-list against the
parsed query. -/
def canonicalQuerySuffix (rawQuery : List Nat) : List Nat :=
  if rawQuery = [] then []
  else resourceLoopAux (goParseQuery rawQuery) sortedResourceList 0 []

/-- Specification-side join for the query portion (refinement target):
question mark before the first fragment, ampersand before each later one. -/
def joinSegs : List (List Nat) → List Nat
  | [] => []
  | s :: rest => 63 :: s ++ rest.flatMap fun t => 38 :: t

/-- Go's `strings.TrimSuffix`. -/
def trimSuffixStr (s suf : String) : String :=
  if suf.toList.isSuffixOf s.toList then
    String.mk (s.toList.take (s.toList.length - suf.toList.length))
  else s

/-- The request URL as the signing code reads it: host, path, raw query.
The raw query is kept as bytes because `url.ParseQuery` works bytewise. -/
structure URLRec where
  host : String
  path : String
  rawQuery : List Nat
deriving DecidableEq

instance : DecidableEq (Except String URLRec) := fun a b =>
  match a, b with
  | .ok x, .ok y => if h : x = y then .isTrue (by rw [h]) else .isFalse (by simp [h])
  | .error x, .error y => if h : x = y then .isTrue (by rw [h]) else .isFalse (by simp [h])
  | .ok _, .error _ => .isFalse (by simp)
  | .error _, .ok _ => .isFalse (by simp)

/-- Embedding of `writeCanonicalizedResource`. Modelled from the spec: the
`regions` table (region host-suffix to region name) is a package-level
constant declared outside `src/request.go`; spec sections 4.5b and 9
describe it as an immutable host-suffix/region mapping iterated to find
the entry whose value equals the configured region, so it enters here as
an explicit association-list parameter, `List.find?` standing for the
`range` loop with `break` on the first match (Go map order is
unspecified; the claims touching this loop do not depend on it). -/
def writeCanonicalizedResource (regions : List (String × String)) (config : Config)
    (u : URLRec) : List Nat :=
  (if config.isVirtualStyle then
    match regions.find? (fun kv => kv.2 == config.Region) with
    | some kv => utf8Bytes (getURLEncodedPath ("/" ++ trimSuffixStr u.host ("." ++ kv.1) ++ u.path))
    | none => []
  else utf8Bytes (getURLEncodedPath u.path))
  ++ canonicalQuerySuffix u.rawQuery

/-! ### Header access and the Signer: `getStringToSign`, `SignV2`,
`PreSignV2` (src/request.go lines 288-395) -/

/-- Go's `req.Header.Get`: first value bound to the key, or empty. The
call sites pass literal names that are already in canonical MIME form, so
the MIME-canonicalization step of `net/textproto` is the identity here. -/
def hGet (hs : Headers) (k : String) : String :=
  match hs.find? (fun kv => kv.1 == k) with
  | some kv => kv.2.headD ""
  | none => ""

/-- Go's `req.Header.Set`: bind the key to exactly one value. -/
def hSet (hs : Headers) (k v : String) : Headers :=
  match hs with
  | [] => [(k, [v])]
  | kv :: rest => if kv.1 = k then (k, [v]) :: rest else kv :: hSet rest k v

/-- Embedding of `getStringToSign` with `writeDefaultHeaders` inlined:
method, Content-MD5, Content-Type and Date each followed by a newline,
then the canonicalized metadata headers, then the canonical resource. -/
def getStringToSign (regions : List (String × String)) (config : Config) (method : String)
    (hs : Headers) (u : URLRec) : List Nat :=
  utf8Bytes (method ++ "\n" ++ hGet hs "Content-MD5" ++ "\n" ++ hGet hs "Content-Type" ++ "\n"
      ++ hGet hs "Date" ++ "\n" ++ writeCanonicalizedAmzHeaders hs)
    ++ writeCanonicalizedResource regions config u

/-- Standard-encoding Base64 alphabet as byte values. -/
def base64Alphabet : List Nat :=
  utf8Bytes "ABCDEFGHIJKLMNOPQRSTUVWXYZabcdefghijklmnopqrstuvwxyz0123456789+/"

/-- Character of the Base64 alphabet for a six-bit value. -/
def b64Char (n : Nat) : Nat :=
  base64Alphabet.getD n 65

/-- Go's `base64.StdEncoding` encoder (61 is the padding equals sign;
division and remainder express the bit regrouping of three bytes into
four six-bit values). -/
def base64Encode : List Nat → List Nat
  | [] => []
  | [a] => [b64Char (a / 4), b64Char (a % 4 * 16), 61, 61]
  | [a, b] => [b64Char (a / 4), b64Char (a % 4 * 16 + b / 16), b64Char (b % 16 * 4), 61]
  | a :: b :: c :: rest =>
    [b64Char (a / 4), b64Char (a % 4 * 16 + b / 16), b64Char (b % 16 * 4 + c / 64),
     b64Char (c % 64)] ++ base64Encode rest

/-- Embedding of `SignV2`, with the wall clock passed in as the formatted
date string it would inject (the only use the function makes of it): set
Date when absent, then set Authorization to the access key and the
Base64 HMAC-SHA1 digest of the string to sign. Returns the header map
the function mutated. -/
def signV2 (hmacSha1 : List Nat → List Nat → List Nat) (regions : List (String × String))
    (config : Config) (method : String) (hs : Headers) (u : URLRec)
    (nowFormatted : String) : Headers :=
  let hs1 := if hGet hs "Date" = "" then hSet hs "Date" nowFormatted else hs
  let digest := hmacSha1 (utf8Bytes config.SecretAccessKey) (getStringToSign regions config method hs1 u)
  hSet hs1 "Authorization" ("AWS " ++ config.AccessKeyID ++ ":" ++ asciiString (base64Encode digest))

/-- Two-sided complement representation of Go `int64` addition: wrap into
the interval from negative two to the sixty-third up to its predecessor. -/
def wrap64 (x : Int) : Int :=
  (x + 2 ^ 63) % 2 ^ 64 - 2 ^ 63

/-- Embedding of `PreSignV2`, with the wall clock passed as the Unix time
`now` (the captured `d.Unix()`). The Date header the source may set does
not influence the returned URL, and the final `URL.String()`
serialization only re-attaches scheme, host and path around the encoded
query, so the model returns the URL record with its raw query replaced by
`url.Values.Encode` of the updated query map. -/
def PreSignV2 (config : Config) (method : String) (u : URLRec) (now expires : Int)
    (hmacSha1 : List Nat → List Nat → List Nat) : Except String URLRec :=
  if config.AccessKeyID = "" ∨ config.SecretAccessKey = "" then
    Except.error "presign requires accesskey and secretkey"
  else
    let epochExpires := wrap64 (now + expires)
    let signText := method ++ "\n\n\n" ++ toString epochExpires ++ "\n" ++ u.path
    let digest := hmacSha1 (utf8Bytes config.SecretAccessKey) (utf8Bytes signText)
    let query := goParseQuery u.rawQuery
    let query := valuesSet query (utf8Bytes "AWSAccessKeyId") (utf8Bytes config.AccessKeyID)
    let query := valuesSet query (utf8Bytes "Expires") (utf8Bytes (toString epochExpires))
    let query := valuesSet query (utf8Bytes "Signature") (base64Encode digest)
    Except.ok { u with rawQuery := valuesEncode query }

end MinioV2

namespace MinioV2

/-! ## Theorems settling the claims -/

/-- C5: for every path that entirely matches the character class
`^[A-Za-z0-9\-_.~/]+$`, the path encoder returns the input unchanged. -/
theorem c5_fast_path_identity (p : String) (h : matchesReservedNames p = true) :
    getURLEncodedPath p = p := by
  simp [getURLEncodedPath, h]

/-- Witness for `c5_fast_path_identity` at a concrete path. -/
theorem c5_witness :
    matchesReservedNames "bucket/obj-1_2.txt~" = true ∧
    getURLEncodedPath "bucket/obj-1_2.txt~" = "bucket/obj-1_2.txt~" :=
  ⟨by decide, c5_fast_path_identity "bucket/obj-1_2.txt~" (by decide)⟩

/-- Helper: every Unicode scalar value is below 1114112. -/
theorem char_toNat_lt (c : Char) : c.toNat < 1114112 := by
  have h := c.valid
  rcases h with h | ⟨_, h2⟩
  · exact Nat.lt_trans h (by norm_num)
  · exact h2

/-- Helper: every byte of a UTF-8 encoded scalar value is below 256. -/
theorem utf8EncodeChar_lt_256 (c : Char) : ∀ b ∈ utf8EncodeChar c, b < 256 := by
  intro b hb
  have hv := char_toNat_lt c
  unfold utf8EncodeChar at hb
  by_cases h1 : c.toNat < 128
  · simp [h1] at hb; omega
  · by_cases h2 : c.toNat < 2048
    · simp [h1, h2] at hb
      rcases hb with hb | hb <;> omega
    · by_cases h3 : c.toNat < 65536
      · simp [h1, h2, h3] at hb
        rcases hb with hb | hb | hb <;> omega
      · simp [h1, h2, h3] at hb
        rcases hb with hb | hb | hb | hb <;> omega

/-- Helper: decoding an uppercase hexadecimal digit gives back its value. -/
theorem hexValChar_hexUpper : ∀ n, n < 16 → hexValChar (hexUpperDigitChar n) = some n := by
  decide

/-- Helper: a character of the reserved class is ASCII. -/
theorem reserved_lt_128 (c : Char) (h : isReservedChar c = true) : c.toNat < 128 := by
  simp [isReservedChar] at h
  omega

/-- Helper: a character of the reserved class is not the percent sign and
its UTF-8 encoding is the single byte of its scalar value. -/
theorem reserved_not_percent (c : Char) (h : isReservedChar c = true) :
    c ≠ '%' ∧ utf8EncodeChar c = [c.toNat] := by
  constructor
  · intro he
    subst he
    exact absurd h (by decide)
  · unfold utf8EncodeChar
    rw [if_pos (reserved_lt_128 c h)]

/-- Helper: the percent decoder inverts the percent rendering of a byte
list, whatever well-formed input follows it. -/
theorem percentDecode_encBytes (bs : List Nat) (hbs : ∀ b ∈ bs, b < 256) (rest : List Char)
    (acc : List Nat) (h : percentDecode rest = some acc) :
    percentDecode
        (bs.flatMap (fun b => ['%', hexUpperDigitChar (b / 16), hexUpperDigitChar (b % 16)]) ++ rest)
      = some (bs ++ acc) := by
  induction bs with
  | nil => simpa using h
  | cons b bs ih =>
    have hb : b < 256 := hbs b (by simp)
    have ih2 := ih (fun x hx => hbs x (by simp [hx]))
    have h1 : hexValChar (hexUpperDigitChar (b / 16)) = some (b / 16) :=
      hexValChar_hexUpper _ (by omega)
    have h2 : hexValChar (hexUpperDigitChar (b % 16)) = some (b % 16) :=
      hexValChar_hexUpper _ (by omega)
    simp only [List.flatMap_cons, List.append_assoc, List.cons_append]
    simp [percentDecode, h1, h2, ih2]
    omega

/-- Helper: the percent decoder inverts the encoding of one rune, whatever
well-formed input follows it. -/
theorem percentDecode_encodePathChar (c : Char) (rest : List Char) (acc : List Nat)
    (h : percentDecode rest = some acc) :
    percentDecode (encodePathChar c ++ rest) = some (utf8EncodeChar c ++ acc) := by
  by_cases hr : isReservedChar c = true
  · obtain ⟨hne, henc⟩ := reserved_not_percent c hr
    have hcons : percentDecode (c :: rest) = some (utf8EncodeChar c ++ acc) := by
      unfold percentDecode
      rw [if_neg hne, h]
    simpa [encodePathChar, hr] using hcons
  · simp only [encodePathChar, Bool.not_eq_true] at hr ⊢
    rw [hr]
    simp only [Bool.false_eq_true, if_false]
    exact percentDecode_encBytes _ (utf8EncodeChar_lt_256 c) rest acc h

/-- Helper: the percent decoder inverts the slow path of the encoder. -/
theorem percentDecode_flatMap (l : List Char) :
    percentDecode (l.flatMap encodePathChar) = some (l.flatMap utf8EncodeChar) := by
  induction l with
  | nil => simp [percentDecode]
  | cons c l ih => simpa using percentDecode_encodePathChar c _ _ ih

/-- Helper: a percent-free string decodes to its own UTF-8 bytes. -/
theorem percentDecode_reserved (l : List Char) (h : ∀ c ∈ l, isReservedChar c = true) :
    percentDecode l = some (l.flatMap utf8EncodeChar) := by
  induction l with
  | nil => simp [percentDecode]
  | cons c l ih =>
    have hc := h c (by simp)
    obtain ⟨hne, henc⟩ := reserved_not_percent c hc
    have ih2 := ih (fun x hx => h x (by simp [hx]))
    unfold percentDecode
    rw [if_neg hne, ih2]
    simp [henc]

/-- Helper: the round-trip law holds for every path, fast path included. -/
theorem getURLEncodedPath_decode (p : String) :
    percentDecode (getURLEncodedPath p).toList = some (utf8Bytes p) := by
  unfold getURLEncodedPath
  by_cases h : matchesReservedNames p = true
  · rw [if_pos h]
    unfold matchesReservedNames at h
    simp only [Bool.and_eq_true, List.all_eq_true] at h
    exact percentDecode_reserved p.toList h.2
  · rw [if_neg h]
    simpa [utf8Bytes, String.toList] using percentDecode_flatMap p.toList

/-- C6: for every path holding a non-ASCII character, percent-decoding the
output of the path encoder yields exactly the UTF-8 bytes of the original
input (whose UTF-8 decoding is the original string), the round-trip law of
the claim. The restriction to non-ASCII inputs comes from the claim; the
helper `getURLEncodedPath_decode` shows the law for every path. -/
theorem c6_roundtrip (p : String) (_h : p.toList.any (fun c => 128 ≤ c.toNat) = true) :
    percentDecode (getURLEncodedPath p).toList = some (utf8Bytes p) :=
  getURLEncodedPath_decode p

/-- Witness for `c6_roundtrip` at a concrete non-ASCII path. -/
theorem c6_witness :
    ("héllo".toList.any (fun c => 128 ≤ c.toNat) = true) ∧
    percentDecode (getURLEncodedPath "héllo").toList = some (utf8Bytes "héllo") :=
  ⟨by decide, c6_roundtrip "héllo" (by decide)⟩

/-- C3 counterexample: the first two example equations of the claim fail on
the code. The split expects a leading separator (component one of the Go
slice is taken as bucket), so `"bucket/obj?x=1"` parses to bucket `"obj"`
and object `""`, and `"bucket"` parses to bucket `""`. -/
theorem c3_counterexample :
    ¬ ((path2BucketAndObject "bucket/obj?x=1" = ("bucket", "obj") ∧
        path2Query "bucket/obj?x=1" = "x=1") ∧
       (path2BucketAndObject "bucket" = ("bucket", "") ∧ path2Query "bucket" = "") ∧
       (path2BucketAndObject "" = ("", "") ∧ path2Query "" = "")) := by
  decide

/-- C3 amended: with the leading path separator the source expects, the
three example equations hold: `"/bucket/obj?x=1"` splits into bucket
`"bucket"`, object `"obj"`, query `"x=1"`; `"/bucket"` into
`("bucket", "", "")`; the empty path into `("", "", "")`. -/
theorem c3_amended_path_examples :
    (path2BucketAndObject "/bucket/obj?x=1" = ("bucket", "obj") ∧
     path2Query "/bucket/obj?x=1" = "x=1") ∧
    (path2BucketAndObject "/bucket" = ("bucket", "") ∧ path2Query "/bucket" = "") ∧
    (path2BucketAndObject "" = ("", "") ∧ path2Query "" = "") := by
  decide

/-- C4 counterexample: on the raw path of the claim (no leading
separator) the URL builder treats `"my object.txt"` as the bucket and
produces a different URL than the claim states. -/
theorem c4_counterexample :
    getRequestURL ⟨"http://s3.example.com", "GET", "mybucket/my object.txt"⟩
        ⟨"", "", "", false⟩ = "http://s3.example.com/my object.txt" ∧
    getRequestURL ⟨"http://s3.example.com", "GET", "mybucket/my object.txt"⟩
        ⟨"", "", "", false⟩ ≠ "http://s3.example.com/mybucket/my%20object.txt" := by
  decide

/-- C4 amended: with the leading separator the source expects on raw
paths, virtual-style off and server `http://s3.example.com`, the raw path
`/mybucket/my object.txt` yields
`http://s3.example.com/mybucket/my%20object.txt`, the space escaped by
the Path Codec. -/
theorem c4_amended_url_builder :
    getRequestURL ⟨"http://s3.example.com", "GET", "/mybucket/my object.txt"⟩
        ⟨"", "", "", false⟩ = "http://s3.example.com/mybucket/my%20object.txt" := by
  decide

/-- Helper: once the emission loop has recorded a match, every later
fragment is appended preceded by an ampersand. -/
theorem resourceLoopAux_pos (vals : Values) (rs : List String) :
    ∀ (n : Nat) (buf : List Nat), n ≠ 0 →
      resourceLoopAux vals rs n buf =
        buf ++ (rs.filterMap (segOf vals)).flatMap (fun s => 38 :: s) := by
  induction rs with
  | nil => intro n buf _; simp [resourceLoopAux]
  | cons res rest ih =>
    intro n buf h
    cases hseg : segOf vals res with
    | none =>
      simp only [resourceLoopAux, hseg, List.filterMap_cons_none]
      exact ih n buf h
    | some seg =>
      simp only [resourceLoopAux, hseg]
      rw [if_neg (by omega : ¬ n + 1 = 1)]
      rw [ih (n + 1) _ (by omega)]
      simp [List.filterMap_cons, hseg, List.append_assoc]

/-- Helper: the emission loop started at counter zero produces the join of
the fragments of the matched allow-list entries, the first preceded by a
question mark and the rest by ampersands. -/
theorem resourceLoopAux_zero (vals : Values) (rs : List String) :
    ∀ buf : List Nat,
      resourceLoopAux vals rs 0 buf = buf ++ joinSegs (rs.filterMap (segOf vals)) := by
  induction rs with
  | nil => intro buf; simp [resourceLoopAux, joinSegs]
  | cons res rest ih =>
    intro buf
    cases hseg : segOf vals res with
    | none =>
      simp only [resourceLoopAux, hseg, List.filterMap_cons_none]
      exact ih buf
    | some seg =>
      simp only [resourceLoopAux, hseg]
      rw [resourceLoopAux_pos vals rest (0 + 1) _ (by omega)]
      simp [joinSegs, List.filterMap_cons, hseg, List.append_assoc]

/-- C1: the query portion of the canonical resource equals, for every raw
query, the join over the sorted fixed allow-list of the fragments of the
parameters present in the parsed query — hence it contains only
allow-listed parameters and lists them in the allow-list's sorted
(lexicographic) order, never in request order; each fragment uses
`vv[0]`, the first value accumulated for the parameter in query order.
The second conjunct pins the sorted allow-list; the remaining conjuncts
check the claim's example `uploads&acl`, the first-value rule on a
repeated `acl`, and the exclusion of a parameter outside the allow-list. -/
theorem c1_canonical_resource_query (rawQuery : List Nat) :
    canonicalQuerySuffix rawQuery =
      joinSegs (sortedResourceList.filterMap (segOf (goParseQuery rawQuery))) ∧
    sortedResourceList = ["acl", "location", "logging", "notification", "partNumber",
      "policy", "requestPayment", "response-cache-control", "response-content-disposition",
      "response-content-encoding", "response-content-language", "response-content-type",
      "response-expires", "torrent", "uploadId", "uploads", "versionId", "versioning",
      "versions", "website"] ∧
    canonicalQuerySuffix (utf8Bytes "uploads&acl") = utf8Bytes "?acl&uploads" ∧
    canonicalQuerySuffix (utf8Bytes "acl=x&acl=y") = utf8Bytes "?acl=x" ∧
    canonicalQuerySuffix (utf8Bytes "foo=1&acl=2") = utf8Bytes "?acl=2" := by
  refine ⟨?_, by decide, by decide, by decide, by decide⟩
  by_cases h : rawQuery = []
  · subst h; decide
  · unfold canonicalQuerySuffix
    rw [if_neg h]
    exact resourceLoopAux_zero _ _ _

/-- C7: pre-signed URL generation returns the missing-credentials error
exactly when the access key or the secret key is empty (so in particular
when the secret key is empty while the access key is set), and in that
case the result is the error alone, no signed URL. -/
theorem c7_presign_missing_credentials (config : Config) (method : String) (u : URLRec)
    (now expires : Int) (hmacSha1 : List Nat → List Nat → List Nat) :
    PreSignV2 config method u now expires hmacSha1 =
        Except.error "presign requires accesskey and secretkey" ↔
      (config.AccessKeyID = "" ∨ config.SecretAccessKey = "") := by
  unfold PreSignV2
  by_cases h : config.AccessKeyID = "" ∨ config.SecretAccessKey = ""
  · simp [h]
  · simp [h]

set_option maxRecDepth 8000 in
/-- C8 counterexample: when the request URL already carries a query
parameter (`acl=x`), the pre-signed URL keeps it alongside the three
added parameters, so the result does not carry exactly the three query
parameters the claim states (the parameter `acl` is still bound in the
resulting query). -/
theorem c8_counterexample :
    PreSignV2 ⟨"AK", "SK", "", false⟩ "GET" ⟨"h", "/b/o", utf8Bytes "acl=x"⟩ 0 60
        (fun _ _ => []) =
      Except.ok ⟨"h", "/b/o", utf8Bytes "AWSAccessKeyId=AK&Expires=60&Signature=&acl=x"⟩ ∧
    valuesGet (goParseQuery (utf8Bytes "AWSAccessKeyId=AK&Expires=60&Signature=&acl=x"))
        (utf8Bytes "acl") = some [utf8Bytes "x"] := by
  constructor <;> decide

/-- C8 (amended): with both credentials present, an in-range expiry sum
and a request URL that carries no query string yet, the bytes handed to
HMAC-SHA1 are exactly `method + "\n\n\n" + epochExpires + "\n" + path`
with `epochExpires = now + expiresInSeconds`, and the resulting URL
carries exactly the three query parameters `AWSAccessKeyId`, `Expires`
(decimal seconds) and `Signature`, bound to the access key, the expiry
time and the Base64 digest. The equation holds for every digest function
`hmacSha1`, which pins the signed string. (When the URL already has query
parameters they are kept as well; see the counterexample.) -/
theorem c8_amended_presign (config : Config) (method : String) (u : URLRec)
    (now expires : Int) (hmacSha1 : List Nat → List Nat → List Nat)
    (hak : config.AccessKeyID ≠ "") (hsk : config.SecretAccessKey ≠ "")
    (hq : u.rawQuery = [])
    (hlo : -(2 ^ 63) ≤ now + expires) (hhi : now + expires < 2 ^ 63) :
    PreSignV2 config method u now expires hmacSha1 =
      Except.ok { u with rawQuery := (valuesEncode
        [(utf8Bytes "AWSAccessKeyId", [utf8Bytes config.AccessKeyID]),
         (utf8Bytes "Expires", [utf8Bytes (toString (now + expires))]),
         (utf8Bytes "Signature",
          [base64Encode (hmacSha1 (utf8Bytes config.SecretAccessKey)
            (utf8Bytes (method ++ "\n\n\n" ++ toString (now + expires) ++ "\n" ++ u.path)))])]) } := by
  have hw : wrap64 (now + expires) = now + expires := by
    unfold wrap64
    omega
  unfold PreSignV2
  rw [if_neg (by tauto)]
  rw [hq, hw]
  simp only [goParseQuery, splitSegs, valuesSet]
  have k1 := eq_false (show ¬ utf8Bytes "AWSAccessKeyId" = utf8Bytes "Expires" from by decide)
  have k2 := eq_false (show ¬ utf8Bytes "AWSAccessKeyId" = utf8Bytes "Signature" from by decide)
  have k3 := eq_false (show ¬ utf8Bytes "Expires" = utf8Bytes "Signature" from by decide)
  simp only [k1, k2, k3, if_false]

/-- Witness for `c8_amended_presign` at concrete credentials, URL, clock
and digest function. -/
theorem c8_witness :
    ((⟨"AK", "SK", "", false⟩ : Config).AccessKeyID ≠ "") ∧
    ((⟨"AK", "SK", "", false⟩ : Config).SecretAccessKey ≠ "") ∧
    ((⟨"h", "/b/o", []⟩ : URLRec).rawQuery = []) ∧
    (-(2 ^ 63) ≤ (0 : Int) + 60) ∧ ((0 : Int) + 60 < 2 ^ 63) ∧
    PreSignV2 ⟨"AK", "SK", "", false⟩ "GET" ⟨"h", "/b/o", []⟩ 0 60 (fun _ m => m) =
      Except.ok { (⟨"h", "/b/o", []⟩ : URLRec) with rawQuery := (valuesEncode
        [(utf8Bytes "AWSAccessKeyId", [utf8Bytes (⟨"AK", "SK", "", false⟩ : Config).AccessKeyID]),
         (utf8Bytes "Expires", [utf8Bytes (toString ((0 : Int) + 60))]),
         (utf8Bytes "Signature",
          [base64Encode ((fun _ m => m) (utf8Bytes (⟨"AK", "SK", "", false⟩ : Config).SecretAccessKey)
            (utf8Bytes ("GET" ++ "\n\n\n" ++ toString ((0 : Int) + 60) ++ "\n"
              ++ (⟨"h", "/b/o", []⟩ : URLRec).path)))])]) } :=
  ⟨by decide, by decide, by decide, by decide, by decide,
    c8_amended_presign ⟨"AK", "SK", "", false⟩ "GET" ⟨"h", "/b/o", []⟩ 0 60 (fun _ m => m)
      (by decide) (by decide) (by decide) (by decide) (by decide)⟩

/-- C10: with virtual-hosted-style addressing on, if no entry of the
region table carries the configured region as its value, the host-suffix
loop writes nothing, so the canonical resource holds no path portion at
all (only the query suffix) and the string to sign omits the resource
path entirely. -/
theorem c10_virtual_style_no_region (regions : List (String × String)) (config : Config)
    (u : URLRec) (method : String) (hs : Headers)
    (h1 : config.isVirtualStyle = true)
    (h2 : ∀ kv ∈ regions, kv.2 ≠ config.Region) :
    writeCanonicalizedResource regions config u = canonicalQuerySuffix u.rawQuery ∧
    getStringToSign regions config method hs u =
      utf8Bytes (method ++ "\n" ++ hGet hs "Content-MD5" ++ "\n" ++ hGet hs "Content-Type"
          ++ "\n" ++ hGet hs "Date" ++ "\n" ++ writeCanonicalizedAmzHeaders hs)
        ++ canonicalQuerySuffix u.rawQuery := by
  have hfind : regions.find? (fun kv => kv.2 == config.Region) = none := by
    apply List.find?_eq_none.mpr
    intro kv hkv
    simpa using h2 kv hkv
  constructor
  · unfold writeCanonicalizedResource
    simp [h1, hfind]
  · unfold getStringToSign writeCanonicalizedResource
    simp [h1, hfind]

/-- Witness for `c10_virtual_style_no_region` at a concrete region table
and configuration. -/
theorem c10_witness :
    (⟨"", "", "milkyway", true⟩ : Config).isVirtualStyle = true ∧
    (∀ kv ∈ [("s3.amazonaws.com", "us-east-1")], kv.2 ≠ (⟨"", "", "milkyway", true⟩ : Config).Region) ∧
    (writeCanonicalizedResource [("s3.amazonaws.com", "us-east-1")] ⟨"", "", "milkyway", true⟩
        ⟨"bucket.example.com", "/obj", utf8Bytes "acl"⟩ =
      canonicalQuerySuffix (utf8Bytes "acl") ∧
     getStringToSign [("s3.amazonaws.com", "us-east-1")] ⟨"", "", "milkyway", true⟩ "GET" []
        ⟨"bucket.example.com", "/obj", utf8Bytes "acl"⟩ =
      utf8Bytes ("GET" ++ "\n" ++ hGet [] "Content-MD5" ++ "\n" ++ hGet [] "Content-Type"
          ++ "\n" ++ hGet [] "Date" ++ "\n" ++ writeCanonicalizedAmzHeaders [])
        ++ canonicalQuerySuffix (utf8Bytes "acl")) :=
  ⟨by decide, by decide,
    c10_virtual_style_no_region [("s3.amazonaws.com", "us-east-1")] ⟨"", "", "milkyway", true⟩
      ⟨"bucket.example.com", "/obj", utf8Bytes "acl"⟩ "GET" [] (by decide) (by decide)⟩


/-- Helper: the bytewise string order is total. -/
theorem charListLE_total : ∀ xs ys : List Char, charListLE xs ys = true ∨ charListLE ys xs = true := by
  intro xs
  induction xs with
  | nil => intro ys; left; simp [charListLE]
  | cons a as ih =>
    intro ys
    cases ys with
    | nil => right; simp [charListLE]
    | cons b bs =>
      by_cases h1 : a.toNat < b.toNat
      · left; simp [charListLE, h1]
      · by_cases h2 : b.toNat < a.toNat
        · right; simp [charListLE, h1, h2]
        · rcases ih bs with h | h
          · left; simp [charListLE, h1, h2, h]
          · right; simp [charListLE, h1, h2, h]

/-- Helper: head characterization of the bytewise order. -/
theorem charListLE_cons (a b : Char) (as bs : List Char) :
    charListLE (a :: as) (b :: bs) = true ↔
      a.toNat < b.toNat ∨ (a.toNat = b.toNat ∧ charListLE as bs = true) := by
  by_cases h1 : a.toNat < b.toNat
  · simp [charListLE, h1]
  · by_cases h2 : b.toNat < a.toNat
    · simp [charListLE, h1, h2]; omega
    · simp only [charListLE]
      rw [if_neg h1, if_neg h2]
      constructor
      · intro h; exact Or.inr ⟨by omega, h⟩
      · rintro (h | ⟨_, h⟩)
        · omega
        · exact h

/-- Helper: the bytewise string order is transitive. -/
theorem charListLE_trans : ∀ xs ys zs : List Char,
    charListLE xs ys = true → charListLE ys zs = true → charListLE xs zs = true := by
  intro xs
  induction xs with
  | nil => intro ys zs _ _; simp [charListLE]
  | cons a as ih =>
    intro ys zs h1 h2
    cases ys with
    | nil => simp [charListLE] at h1
    | cons b bs =>
      cases zs with
      | nil => simp [charListLE] at h2
      | cons c cs =>
        rw [charListLE_cons] at h1 h2 ⊢
        rcases h1 with h1 | ⟨h1e, h1r⟩
        · rcases h2 with h2 | ⟨h2e, _⟩
          · exact Or.inl (by omega)
          · exact Or.inl (by omega)
        · rcases h2 with h2 | ⟨h2e, h2r⟩
          · exact Or.inl (by omega)
          · exact Or.inr ⟨by omega, ih bs cs h1r h2r⟩

/-- Helper: the bytewise string order is antisymmetric. -/
theorem charListLE_antisymm : ∀ xs ys : List Char,
    charListLE xs ys = true → charListLE ys xs = true → xs = ys := by
  intro xs
  induction xs with
  | nil =>
    intro ys _ h2
    cases ys with
    | nil => rfl
    | cons b bs => simp [charListLE] at h2
  | cons a as ih =>
    intro ys h1 h2
    cases ys with
    | nil => simp [charListLE] at h1
    | cons b bs =>
      rw [charListLE_cons] at h1 h2
      have hab : a.toNat = b.toNat := by omega
      have : a = b := Char.eq_of_val_eq (UInt32.ext hab)
      subst this
      have hr1 : charListLE as bs = true := by
        rcases h1 with h1 | ⟨_, h1⟩
        · omega
        · exact h1
      have hr2 : charListLE bs as = true := by
        rcases h2 with h2 | ⟨_, h2⟩
        · omega
        · exact h2
      rw [ih bs hr1 hr2]

/-- Helper: equal character lists force equal strings. -/
theorem string_eq_of_toList (a b : String) (h : a.toList = b.toList) : a = b := by
  cases a
  cases b
  exact congrArg String.mk h

/-- Helper: sorting with the bytewise order is invariant under
permutation of the input. -/
theorem sortNames_perm_eq (l1 l2 : List String) (hp : l1.Perm l2) :
    List.insertionSort strLEr l1 = List.insertionSort strLEr l2 := by
  haveI ht : IsTotal String strLEr :=
    ⟨fun a b => charListLE_total a.toList b.toList⟩
  haveI : IsTrans String strLEr :=
    ⟨fun a b c h1 h2 => charListLE_trans a.toList b.toList c.toList h1 h2⟩
  haveI : IsAntisymm String strLEr :=
    ⟨fun a b h1 h2 => string_eq_of_toList a b (charListLE_antisymm a.toList b.toList h1 h2)⟩
  exact List.eq_of_perm_of_sorted
    ((List.perm_insertionSort _ _).trans (hp.trans (List.perm_insertionSort _ _).symm))
    (List.sorted_insertionSort _ _) (List.sorted_insertionSort _ _)

/-- Helper: projecting the sorted pairs to their names is sorting the
names, because the pair order only reads the name. -/
theorem map_fst_orderedInsert (p : String × List String) (l : List (String × List String)) :
    (List.orderedInsert (fun a b => strLEr a.1 b.1) p l).map Prod.fst =
      List.orderedInsert strLEr p.1 (l.map Prod.fst) := by
  induction l with
  | nil => simp [List.orderedInsert]
  | cons q t ih =>
    by_cases h : strLEr p.1 q.1
    · simp [List.orderedInsert, h]
    · simp [List.orderedInsert, h, ih]

/-- Helper: `insertionSort` on pairs then `map fst` equals `map fst` then
`insertionSort` on names. -/
theorem map_fst_insertionSort (l : List (String × List String)) :
    (List.insertionSort (fun a b => strLEr a.1 b.1) l).map Prod.fst =
      List.insertionSort strLEr (l.map Prod.fst) := by
  induction l with
  | nil => rfl
  | cons p t ih => simp [List.insertionSort, map_fst_orderedInsert, ih]

/-- Helper: the collected lowercased names are the names of the collected
pairs, in the same order. -/
theorem amzNames_eq (hs : Headers) : amzNames hs = (amzPairs hs).map Prod.fst := by
  induction hs with
  | nil => rfl
  | cons kv t ih =>
    by_cases h : goHasPre (toLowerStr kv.1) "x-amz" = true
    · simp only [amzNames, amzPairs, List.map_cons, List.filter_cons, List.filterMap_cons, h,
        if_true] at ih ⊢
      simpa using ih
    · simp only [amzNames, amzPairs, List.map_cons, List.filter_cons, List.filterMap_cons,
        h] at ih ⊢
      simpa using ih

/-- Helper: writing a fresh key into the `vals` map appends it. -/
theorem valsUpdate_append (m : List (String × List String)) (k : String) (v : List String)
    (h : ∀ p ∈ m, p.1 ≠ k) : valsUpdate m k v = m ++ [(k, v)] := by
  induction m with
  | nil => rfl
  | cons q t ih =>
    unfold valsUpdate
    rw [if_neg (h q (by simp)), ih (fun p hp => h p (by simp [hp]))]
    rfl

/-- Helper: with pairwise distinct lowercased names, the collection fold
builds the `vals` map as exactly the collected pairs after any prior
bindings with other keys. -/
theorem amzVals_go (hs : Headers) :
    ∀ m : List (String × List String),
      (∀ p ∈ m, ∀ kv ∈ hs, goHasPre (toLowerStr kv.1) "x-amz" = true → p.1 ≠ toLowerStr kv.1) →
      (hs.map fun kv => toLowerStr kv.1).Nodup →
      hs.foldl (fun m kv =>
        let lk := toLowerStr kv.1
        if goHasPre lk "x-amz" then valsUpdate m lk kv.2 else m) m = m ++ amzPairs hs := by
  induction hs with
  | nil => intro m _ _; simp [amzPairs]
  | cons kv t ih =>
    intro m hm hnd
    have hnd' : (toLowerStr kv.1 :: t.map fun kv => toLowerStr kv.1).Nodup := by
      simpa only [List.map_cons] using hnd
    have hnd2 := (List.nodup_cons.mp hnd').2
    have hhead := (List.nodup_cons.mp hnd').1
    simp only [List.foldl_cons]
    by_cases h : goHasPre (toLowerStr kv.1) "x-amz" = true
    · have hfresh : ∀ p ∈ m, p.1 ≠ toLowerStr kv.1 :=
        fun p hp => hm p hp kv (by simp) h
      have hstep : (if goHasPre (toLowerStr kv.1) "x-amz" then
          valsUpdate m (toLowerStr kv.1) kv.2 else m) = m ++ [(toLowerStr kv.1, kv.2)] := by
        rw [if_pos h, valsUpdate_append m _ _ hfresh]
      simp only [hstep]
      rw [ih (m ++ [(toLowerStr kv.1, kv.2)]) ?_ hnd2]
      · simp [amzPairs, List.filterMap_cons, h]
      · intro p hp kv2 hkv2 hamz
        rcases List.mem_append.mp hp with hp | hp
        · exact hm p hp kv2 (by simp [hkv2]) hamz
        · have hp1 : p.1 = toLowerStr kv.1 := by
            rcases List.mem_singleton.mp hp with rfl
            rfl
          rw [hp1]
          intro he
          exact hhead (he ▸ List.mem_map.mpr ⟨kv2, hkv2, rfl⟩)
    · have hstep : (if goHasPre (toLowerStr kv.1) "x-amz" then
          valsUpdate m (toLowerStr kv.1) kv.2 else m) = m := by
        rw [if_neg (by simpa using h)]
      simp only [hstep]
      rw [ih m (fun p hp kv2 hkv2 hamz => hm p hp kv2 (by simp [hkv2]) hamz) hnd2]
      simp [amzPairs, List.filterMap_cons, h]

/-- Helper: with pairwise distinct lowercased names the final `vals` map
is exactly the collected pairs. -/
theorem amzVals_eq (hs : Headers) (hnd : (hs.map fun kv => toLowerStr kv.1).Nodup) :
    amzVals hs = amzPairs hs := by
  have h := amzVals_go hs [] (by intro p hp; simp at hp) hnd
  simpa [amzVals] using h

/-- Helper: looking a pair's name up in a map with pairwise distinct names
returns that pair's values. -/
theorem valsGet_of_mem (l : List (String × List String))
    (hnd : (l.map Prod.fst).Nodup) (p : String × List String) (hp : p ∈ l) :
    valsGet l p.1 = p.2 := by
  induction l with
  | nil => simp at hp
  | cons q t ih =>
    have hnd' : (q.1 :: t.map Prod.fst).Nodup := by
      simpa only [List.map_cons] using hnd
    rcases List.mem_cons.mp hp with rfl | hp2
    · unfold valsGet
      rw [List.find?_cons_of_pos _ (by simp)]
    · have hqb : (q.1 == p.1) = false := by
        simp only [beq_eq_false_iff_ne, ne_eq]
        intro he
        have hmem : p.1 ∈ t.map Prod.fst := List.mem_map.mpr ⟨p, hp2, rfl⟩
        rw [← he] at hmem
        exact (List.nodup_cons.mp hnd').1 hmem
      have hstep : List.find? (fun kv : String × List String => kv.1 == p.1) (q :: t) =
          List.find? (fun kv => kv.1 == p.1) t :=
        List.find?_cons_of_neg t (by simp [hqb])
      have ih2 := ih (List.nodup_cons.mp hnd').2 hp2
      unfold valsGet at ih2 ⊢
      rw [hstep]
      exact ih2

/-- Helper: with pairwise distinct lowercased header names the emitted
section coincides with the specification-side description. -/
theorem writeAmz_eq_spec (hs : Headers)
    (hnd : (hs.map fun kv => toLowerStr kv.1).Nodup) :
    writeCanonicalizedAmzHeaders hs = amzHeadersSpec hs := by
  have hndn : (amzNames hs).Nodup := List.Nodup.sublist (List.filter_sublist _) hnd
  have hndp : ((amzPairs hs).map Prod.fst).Nodup := by
    rw [← amzNames_eq]; exact hndn
  simp only [writeCanonicalizedAmzHeaders, amzHeadersSpec]
  rw [amzVals_eq hs hnd, amzNames_eq, ← map_fst_insertionSort, List.map_map]
  apply congrArg strJoin
  apply List.map_congr_left
  intro p hp
  have hmem : p ∈ amzPairs hs := (List.perm_insertionSort _ _).subset hp
  simp only [Function.comp]
  rw [valsGet_of_mem _ hndp p hmem]

/-- C2 counterexample: two headers whose names differ only in casing are
not merged into a single entry. On the map holding both spellings the
code appends the lowercased name once per header and the last map write
wins, so the section emits the name twice (two newline-terminated lines,
the first header's value lost) where a merged single entry would emit
exactly one line. -/
theorem c2_counterexample :
    writeCanonicalizedAmzHeaders [("X-Amz-A", ["1"]), ("x-amz-a", ["2"])] =
      "x-amz-a:2\nx-amz-a:2\n" ∧
    ((writeCanonicalizedAmzHeaders [("X-Amz-A", ["1"]), ("x-amz-a", ["2"])]).toList.filter
        (fun c => c == '\n')).length ≠ 1 := by
  constructor <;> decide

/-- Helper: under pairwise distinct lowercased names the emitted section
is invariant under permutation of the header map (the stand-in for Go's
unspecified map iteration order). -/
theorem writeAmz_perm_eq (hs hs2 : Headers) (hperm : hs.Perm hs2)
    (hnd : (hs.map fun kv => toLowerStr kv.1).Nodup) :
    writeCanonicalizedAmzHeaders hs2 = writeCanonicalizedAmzHeaders hs := by
  have hnd2 : (hs2.map fun kv => toLowerStr kv.1).Nodup := (hperm.map _).nodup_iff.mp hnd
  have hpairs : (amzPairs hs).Perm (amzPairs hs2) := hperm.filterMap _
  have hnames : (amzNames hs2).Perm (amzNames hs) := by
    unfold amzNames
    exact ((hperm.map _).filter _).symm
  have hsort : List.insertionSort strLEr (amzNames hs2) = List.insertionSort strLEr (amzNames hs) :=
    sortNames_perm_eq _ _ hnames
  have hndp : ((amzPairs hs).map Prod.fst).Nodup := by
    rw [← amzNames_eq]; exact List.Nodup.sublist (List.filter_sublist _) hnd
  have hndp2 : ((amzPairs hs2).map Prod.fst).Nodup := by
    rw [← amzNames_eq]; exact List.Nodup.sublist (List.filter_sublist _) hnd2
  simp only [writeCanonicalizedAmzHeaders]
  rw [amzVals_eq hs hnd, amzVals_eq hs2 hnd2, hsort]
  apply congrArg strJoin
  apply List.map_congr_left
  intro k hk
  have hk2 : k ∈ amzNames hs := (List.perm_insertionSort _ _).subset hk
  rw [amzNames_eq] at hk2
  obtain ⟨p, hpmem, rfl⟩ := List.mem_map.mp hk2
  rw [valsGet_of_mem _ hndp p hpmem, valsGet_of_mem _ hndp2 p (hpairs.subset hpmem)]

/-- C2 (amended): for every header map whose names have pairwise distinct
lowercased forms, the canonicalized metadata-header section emits exactly
the headers whose lowercased name begins with `x-amz`, with names
lowercased, in ascending lexicographic (bytewise) order of the lowercased
name, and the emission does not depend on insertion order: any
permutation of the header map produces the same section. (Two headers
with the same lowercased name are excluded: the counterexample shows the
code emits them as two entries rather than merging them.) -/
theorem c2_amended_sorted_emission (hs hs2 : Headers) (hperm : hs.Perm hs2)
    (hnd : (hs.map fun kv => toLowerStr kv.1).Nodup) :
    writeCanonicalizedAmzHeaders hs = amzHeadersSpec hs ∧
    writeCanonicalizedAmzHeaders hs2 = writeCanonicalizedAmzHeaders hs :=
  ⟨writeAmz_eq_spec hs hnd, writeAmz_perm_eq hs hs2 hperm hnd⟩

/-- Witness for `c2_amended_sorted_emission` at a concrete header map and
a permutation of it. -/
theorem c2_witness :
    ([("X-Amz-Meta-B", ["2"]), ("Content-Type", ["ct"]), ("X-Amz-Meta-A", ["1"])] : Headers).Perm
      [("X-Amz-Meta-A", ["1"]), ("X-Amz-Meta-B", ["2"]), ("Content-Type", ["ct"])] ∧
    (([("X-Amz-Meta-B", ["2"]), ("Content-Type", ["ct"]), ("X-Amz-Meta-A", ["1"])] : Headers).map
        fun kv => toLowerStr kv.1).Nodup ∧
    (writeCanonicalizedAmzHeaders
        [("X-Amz-Meta-B", ["2"]), ("Content-Type", ["ct"]), ("X-Amz-Meta-A", ["1"])] =
      amzHeadersSpec [("X-Amz-Meta-B", ["2"]), ("Content-Type", ["ct"]), ("X-Amz-Meta-A", ["1"])] ∧
     writeCanonicalizedAmzHeaders
        [("X-Amz-Meta-A", ["1"]), ("X-Amz-Meta-B", ["2"]), ("Content-Type", ["ct"])] =
      writeCanonicalizedAmzHeaders
        [("X-Amz-Meta-B", ["2"]), ("Content-Type", ["ct"]), ("X-Amz-Meta-A", ["1"])]) :=
  ⟨by decide, by decide, c2_amended_sorted_emission _ _ (by decide) (by decide)⟩


/-- Helper: a search with at most one hit in the list is determined by the
multiset of elements, not their order. -/
theorem find?_perm_subsingleton (p : α → Bool) (l1 l2 : List α)
    (hp : l1.Perm l2) (hlen : (l1.filter p).length ≤ 1) :
    l1.find? p = l2.find? p := by
  rw [← List.filter_head? p l1, ← List.filter_head? p l2]
  have hfp : (l1.filter p).Perm (l2.filter p) := hp.filter p
  cases hfl : l1.filter p with
  | nil =>
    rw [hfl] at hfp
    rw [hfp.symm.eq_nil]
  | cons a t =>
    rw [hfl] at hfp hlen
    have ht : t = [] := by
      cases t with
      | nil => rfl
      | cons b t2 => simp at hlen
    subst ht
    rw [List.perm_singleton.mp hfp.symm]

/-- Helper: among pairs with pairwise distinct names a key matches at most
one pair. -/
theorem filter_key_len_le_one (l : List (String × List String))
    (hnd : (l.map Prod.fst).Nodup) (k : String) :
    (l.filter (fun kv => kv.1 == k)).length ≤ 1 := by
  induction l with
  | nil => simp
  | cons q t ih =>
    have hnd' : (q.1 :: t.map Prod.fst).Nodup := by simpa only [List.map_cons] using hnd
    by_cases h : (q.1 == k) = true
    · have hnil : t.filter (fun kv => kv.1 == k) = [] := by
        rw [List.filter_eq_nil_iff]
        intro kv hkv
        simp only [beq_iff_eq]
        intro he
        have hk : q.1 = k := by simpa using h
        have hmem : kv.1 ∈ t.map Prod.fst := List.mem_map.mpr ⟨kv, hkv, rfl⟩
        rw [he, ← hk] at hmem
        exact (List.nodup_cons.mp hnd').1 hmem
      simp [List.filter_cons, h, hnil]
    · simpa [List.filter_cons, h] using ih (List.nodup_cons.mp hnd').2

/-- Helper: with pairwise distinct names, header lookup sees only the map
contents, not the iteration order. -/
theorem hGet_perm (hs1 hs2 : Headers) (hperm : hs1.Perm hs2)
    (hknd : (hs1.map Prod.fst).Nodup) (k : String) :
    hGet hs1 k = hGet hs2 k := by
  unfold hGet
  rw [find?_perm_subsingleton _ hs1 hs2 hperm (filter_key_len_le_one hs1 hknd k)]

/-- Helper: pairwise distinct lowercased names force pairwise distinct
names. -/
theorem keys_nodup_of_lower (hs : Headers)
    (hnd : (hs.map fun kv => toLowerStr kv.1).Nodup) : (hs.map Prod.fst).Nodup := by
  apply List.Nodup.of_map toLowerStr
  rw [List.map_map]
  exact hnd

/-- Helper: reading back the header just set. -/
theorem hGet_hSet_self (hs : Headers) (k v : String) :
    hGet (hSet hs k v) k = v := by
  induction hs with
  | nil =>
    unfold hSet hGet
    rw [List.find?_cons_of_pos _ (by simp)]
    rfl
  | cons q t ih =>
    unfold hSet
    by_cases h : q.1 = k
    · unfold hGet
      rw [if_pos h, List.find?_cons_of_pos _ (by simp)]
      rfl
    · unfold hGet at ih ⊢
      rw [if_neg h]
      have hstep : List.find? (fun kv : String × List String => kv.1 == k) (q :: hSet t k v) =
          List.find? (fun kv => kv.1 == k) (hSet t k v) :=
        List.find?_cons_of_neg _ (by simp [h])
      rw [hstep]
      exact ih

set_option maxRecDepth 8000 in
/-- C9 counterexample: run-to-run determinism fails on the code. Go
randomizes map iteration and the regions loop of
`writeCanonicalizedResource` breaks on the first entry whose value is the
configured region; the association-list order models one iteration
order, so two permutations of the same regions table (the same Go map)
are two runs over the same request state. With two host suffixes mapped
to the configured region the two runs strip different suffixes from the
host, and the same method, headers (fixed Date), resource, secret key
and clock produce different Authorization values. -/
theorem c9_counterexample :
    ([("a.example.com", "r"), ("b.example.com", "r")] : List (String × String)).Perm
      [("b.example.com", "r"), ("a.example.com", "r")] ∧
    hGet (signV2 (fun _ m => m) [("a.example.com", "r"), ("b.example.com", "r")]
        ⟨"AK", "SK", "r", true⟩ "GET" [("Date", ["D"])]
        ⟨"bucket.a.example.com", "/obj", []⟩ "now") "Authorization" ≠
      hGet (signV2 (fun _ m => m) [("b.example.com", "r"), ("a.example.com", "r")]
        ⟨"AK", "SK", "r", true⟩ "GET" [("Date", ["D"])]
        ⟨"bucket.a.example.com", "/obj", []⟩ "now") "Authorization" := by
  constructor <;> decide

/-- C9 (amended): header signing is deterministic once the unspecified
map iteration orders are fixed — the embedding of `SignV2` is a pure
function of method, headers, resource, secret key, injected Date and the
two map presentation orders — and it is genuinely run-to-run
deterministic under the conditions that make the two order-dependent
loops order-free: with a Date header present, at most one regions entry
carrying the configured region as its value, and header names with
pairwise distinct lowercased forms, the emitted Authorization value is
independent of the clock and invariant under reordering (Go's randomized
map iteration) of both the regions table and the header map, so any two
runs over the same request state agree. -/
theorem c9_amended_sign_deterministic (hmacSha1 : List Nat → List Nat → List Nat)
    (regions1 regions2 : List (String × String)) (config : Config) (method : String)
    (hs1 hs2 : Headers) (u : URLRec) (now1 now2 : String)
    (hdate : hGet hs1 "Date" ≠ "")
    (hrperm : regions1.Perm regions2)
    (hruniq : (regions1.filter (fun kv => kv.2 == config.Region)).length ≤ 1)
    (hperm : hs1.Perm hs2)
    (hnd : (hs1.map fun kv => toLowerStr kv.1).Nodup) :
    hGet (signV2 hmacSha1 regions1 config method hs1 u now1) "Authorization" =
      hGet (signV2 hmacSha1 regions2 config method hs2 u now2) "Authorization" := by
  have hknd : (hs1.map Prod.fst).Nodup := keys_nodup_of_lower hs1 hnd
  have hget : ∀ k, hGet hs1 k = hGet hs2 k := fun k => hGet_perm hs1 hs2 hperm hknd k
  have hdate2 : hGet hs2 "Date" ≠ "" := by
    rw [← hget "Date"]
    exact hdate
  have hfind : regions1.find? (fun kv => kv.2 == config.Region) =
      regions2.find? (fun kv => kv.2 == config.Region) :=
    find?_perm_subsingleton _ regions1 regions2 hrperm hruniq
  have hres : writeCanonicalizedResource regions1 config u =
      writeCanonicalizedResource regions2 config u := by
    unfold writeCanonicalizedResource
    rw [hfind]
  have hamz : writeCanonicalizedAmzHeaders hs2 = writeCanonicalizedAmzHeaders hs1 :=
    writeAmz_perm_eq hs1 hs2 hperm hnd
  have hsts : getStringToSign regions2 config method hs2 u =
      getStringToSign regions1 config method hs1 u := by
    unfold getStringToSign
    rw [hres, hamz, hget "Content-MD5", hget "Content-Type", hget "Date"]
  simp only [signV2]
  rw [if_neg hdate, if_neg hdate2, hGet_hSet_self, hGet_hSet_self, hsts]

/-- Witness for `c9_amended_sign_deterministic` at a concrete state: a
nontrivially permuted regions table and header map, a fixed Date and two
different clock values. -/
theorem c9_witness :
    hGet [("Date", ["D"]), ("X-Amz-Meta-K", ["v"])] "Date" ≠ "" ∧
    ([("s3.amazonaws.com", "us-east-1"), ("s3-eu.example.com", "eu-west-1")] :
        List (String × String)).Perm
      [("s3-eu.example.com", "eu-west-1"), ("s3.amazonaws.com", "us-east-1")] ∧
    (([("s3.amazonaws.com", "us-east-1"), ("s3-eu.example.com", "eu-west-1")] :
        List (String × String)).filter
      (fun kv => kv.2 == (⟨"AK", "SK", "us-east-1", true⟩ : Config).Region)).length ≤ 1 ∧
    ([("Date", ["D"]), ("X-Amz-Meta-K", ["v"])] : Headers).Perm
      [("X-Amz-Meta-K", ["v"]), ("Date", ["D"])] ∧
    (([("Date", ["D"]), ("X-Amz-Meta-K", ["v"])] : Headers).map fun kv => toLowerStr kv.1).Nodup ∧
    hGet (signV2 (fun k m => k ++ m)
        [("s3.amazonaws.com", "us-east-1"), ("s3-eu.example.com", "eu-west-1")]
        ⟨"AK", "SK", "us-east-1", true⟩ "GET" [("Date", ["D"]), ("X-Amz-Meta-K", ["v"])]
        ⟨"bucket.s3.amazonaws.com", "/obj", []⟩ "clock one") "Authorization" =
      hGet (signV2 (fun k m => k ++ m)
        [("s3-eu.example.com", "eu-west-1"), ("s3.amazonaws.com", "us-east-1")]
        ⟨"AK", "SK", "us-east-1", true⟩ "GET" [("X-Amz-Meta-K", ["v"]), ("Date", ["D"])]
        ⟨"bucket.s3.amazonaws.com", "/obj", []⟩ "clock two") "Authorization" :=
  ⟨by decide, by decide, by decide, by decide, by decide,
    c9_amended_sign_deterministic (fun k m => k ++ m) _ _ _ "GET" _ _ _ "clock one" "clock two"
      (by decide) (by decide) (by decide) (by decide) (by decide)⟩

end MinioV2
